import Mathlib

/-!
Verification of the vectorize-store-retrieve pipeline.

The embedded functions mirror the Python source:
- `text_to_vector` and `cosine_similarity` from `src/test_google.py`
  (bag-of-words vectorization and cosine similarity over float lists);
- `entry_id` from `src/test_google.py`'s `main` (ingestion record ids);
- the `VectorStore` operations (`upsert`, `growVocabulary`, `getAll`) and the
  `rank` function, which the source delegates to an external store, are
  modelled from the spec.

Python floats are modelled exactly: vectors carry rational entries (token
frequencies are small integers, exactly representable), and cosine scores
live in the reals so that square roots are exact.
-/

namespace Pipeline

/-- Splits a character list into the maximal nonempty runs of characters
of the word class `isW`, which is what `re.findall` of a word-bounded run
pattern over that class returns. `cur` accumulates the current run in
reverse. -/
def splitTokensAux (isW : Char → Bool) (cur : List Char) :
    List Char → List (List Char)
  | [] => if cur.isEmpty then [] else [cur.reverse]
  | c :: cs =>
    if isW c then splitTokensAux isW (c :: cur) cs
    else if cur.isEmpty then splitTokensAux isW [] cs
    else cur.reverse :: splitTokensAux isW [] cs

/-- Tokenization used by `text_to_vector`:
`re.findall(r'\b\w+\b', text.lower())` — lowercase the text, then take the
maximal word-character runs. Python's `\w` class and `str.lower()` are
Unicode-aware (they cover, e.g., Cyrillic); their character tables enter
here as the parameters `isW` (the word-character class) and `lower` (the
lowercasing map), over which the theorems below quantify universally, so
the results hold in particular for the actual Unicode tables. -/
def tokenize (isW : Char → Bool) (lower : String → String)
    (text : String) : List String :=
  (splitTokensAux isW [] (lower text).data).map String.mk

/-- Embeds `text_to_vector(text, vocab=None)` from `src/test_google.py`:
token frequencies are counted; when no vocabulary is supplied the vocabulary
is the sorted list of distinct tokens; the vector lists each vocabulary
term's frequency. The `isW`/`lower` parameters carry the Unicode tables of
the tokenizer, as in `tokenize`. -/
def text_to_vector (isW : Char → Bool) (lower : String → String)
    (text : String) (vocab : Option (List String)) :
    List ℚ × List String :=
  let tokens := tokenize isW lower text
  let voc := match vocab with
    | none => List.insertionSort (· ≤ ·) tokens.dedup
    | some v => v
  (voc.map fun w => ((tokens.count w : ℕ) : ℚ), voc)

/-- Restriction of the word-character class to ASCII (alphanumeric plus
underscore), used only to instantiate witnesses at concrete evaluable
inputs. -/
def asciiWordChar (c : Char) : Bool := c.isAlphanum || c == '_'

/-- Restriction of lowercasing to the per-character ASCII case, used only
to instantiate witnesses at concrete evaluable inputs. -/
def asciiLower (s : String) : String := String.mk (s.data.map Char.toLower)

/-- C6: vectorization is deterministic and pure: for every word-character
class and lowercasing map (in particular the source's Unicode tables),
identical text and vocabulary give identical (vector, vocabulary) results,
and a supplied vocabulary is returned unchanged (the input is not
mutated). -/
theorem text_to_vector_deterministic (isW : Char → Bool)
    (lower : String → String) (T₁ T₂ : String)
    (V₁ V₂ : Option (List String)) (hT : T₁ = T₂) (hV : V₁ = V₂) :
    text_to_vector isW lower T₁ V₁ = text_to_vector isW lower T₂ V₂ ∧
      ∀ v : List String, (text_to_vector isW lower T₁ (some v)).2 = v := by
  subst hT; subst hV
  exact ⟨rfl, fun _ => rfl⟩

/-- Witness for C6 at concrete inputs. -/
theorem text_to_vector_deterministic_witness :
    ("alloy" : String) = "alloy" ∧
      (text_to_vector asciiWordChar asciiLower "alloy" (some ["a"]) =
          text_to_vector asciiWordChar asciiLower "alloy" (some ["a"]) ∧
        ∀ v : List String,
          (text_to_vector asciiWordChar asciiLower "alloy" (some v)).2 = v) :=
  ⟨rfl, text_to_vector_deterministic asciiWordChar asciiLower "alloy" "alloy"
    (some ["a"]) (some ["a"]) rfl rfl⟩

/-- C1: for every word-character class and lowercasing map (in particular
the source's Unicode tables) and a supplied vocabulary `V`, the output
vocabulary is `V` unchanged, the vector has length exactly `V.length`,
position `i` holds the frequency in the tokenized lowercased text of the
`i`-th vocabulary term (`0` when the term does not occur), and input tokens
outside `V` contribute nothing: the vector only depends on the counts of
`V`'s terms. -/
theorem text_to_vector_query_mode (isW : Char → Bool)
    (lower : String → String) (T : String) (V : List String) :
    (text_to_vector isW lower T (some V)).2 = V ∧
      (text_to_vector isW lower T (some V)).1.length = V.length ∧
      (text_to_vector isW lower T (some V)).1 =
        V.map (fun w => (((tokenize isW lower T).count w : ℕ) : ℚ)) ∧
      (∀ i (h : i < V.length),
        (text_to_vector isW lower T (some V)).1.getD i 0 =
          (((tokenize isW lower T).count (V.get ⟨i, h⟩) : ℕ) : ℚ)) ∧
      (∀ i (h : i < V.length), V.get ⟨i, h⟩ ∉ tokenize isW lower T →
        (text_to_vector isW lower T (some V)).1.getD i 0 = 0) ∧
      (∀ T' : String,
        (∀ w ∈ V, (tokenize isW lower T).count w =
          (tokenize isW lower T').count w) →
        (text_to_vector isW lower T (some V)).1 =
          (text_to_vector isW lower T' (some V)).1) := by
  refine ⟨rfl, by simp [text_to_vector], rfl, ?_, ?_, ?_⟩
  · intro i h
    simp only [text_to_vector]
    rw [List.getD_eq_getElem _ _ (by simpa using h)]
    simp [List.get_eq_getElem]
  · intro i h hnot
    simp only [text_to_vector]
    rw [List.getD_eq_getElem _ _ (by simpa using h)]
    simp only [List.getElem_map]
    rw [List.count_eq_zero_of_not_mem (by simpa [List.get_eq_getElem] using hnot)]
    simp
  · intro T' hcnt
    simp only [text_to_vector]
    exact List.map_congr_left fun w hw => by rw [hcnt w hw]

/-- Witness for C1 at concrete inputs: text "b a b", vocabulary
["a", "b", "z"], the ASCII instantiation of the character tables. -/
theorem text_to_vector_query_mode_witness :
    (text_to_vector asciiWordChar asciiLower "b a b"
        (some ["a", "b", "z"])).1.getD 2 0 = 0 ∧
      (text_to_vector asciiWordChar asciiLower "b a b"
        (some ["a", "b", "z"])).1.getD 0 0 = 1 := by
  refine ⟨(text_to_vector_query_mode asciiWordChar asciiLower "b a b"
      ["a", "b", "z"]).2.2.2.2.1 2 (by decide) (by decide), ?_⟩
  have h := (text_to_vector_query_mode asciiWordChar asciiLower "b a b"
    ["a", "b", "z"]).2.2.2.1 0 (by decide)
  rw [h]; decide

/-- C5: for every word-character class and lowercasing map (in particular
the source's Unicode tables), with no supplied vocabulary the output
vocabulary is the sorted (by the code-point order on strings)
duplicate-free list of the tokens of the lowercased text, and the vector
lists each term's frequency in that order. -/
theorem text_to_vector_defining_mode (isW : Char → Bool)
    (lower : String → String) (T : String) :
    (text_to_vector isW lower T none).2.Sorted (· ≤ ·) ∧
      (text_to_vector isW lower T none).2.Nodup ∧
      (∀ w : String,
        w ∈ (text_to_vector isW lower T none).2 ↔ w ∈ tokenize isW lower T) ∧
      (text_to_vector isW lower T none).1 =
        (text_to_vector isW lower T none).2.map
          (fun w => (((tokenize isW lower T).count w : ℕ) : ℚ)) := by
  refine ⟨List.sorted_insertionSort _ _, ?_, ?_, rfl⟩
  · exact ((List.perm_insertionSort _ _).nodup_iff).2 (List.nodup_dedup _)
  · intro w
    constructor
    · intro hw
      exact List.mem_dedup.1 ((List.perm_insertionSort _ _).mem_iff.1 hw)
    · intro hw
      exact (List.perm_insertionSort _ _).mem_iff.2 (List.mem_dedup.2 hw)

/-- Dot product as computed by `cosine_similarity` in `src/test_google.py`:
`sum(a*b for a, b in zip(v1, v2))` — the zip truncates to the common
prefix of the two lists. -/
def dotList (v1 v2 : List ℚ) : ℚ := (List.zipWith (· * ·) v1 v2).sum

/-- Sum of squares of a vector's entries, the quantity under the square
root in each norm of `cosine_similarity`. -/
def sumSq (v : List ℚ) : ℚ := (v.map fun a => a * a).sum

/-- Euclidean norm `math.sqrt(sum(a*a for a in v))`, taken over the whole
list. -/
noncomputable def norm2 (v : List ℚ) : ℝ := Real.sqrt ((sumSq v : ℚ) : ℝ)

/-- Embeds `cosine_similarity(v1, v2)` from `src/test_google.py`:
`dot / (norm1 * norm2 + 1e-8)`. -/
noncomputable def cosine_similarity (v1 v2 : List ℚ) : ℝ :=
  ((dotList v1 v2 : ℚ) : ℝ) / (norm2 v1 * norm2 v2 + 1e-8)

theorem sumSq_nonneg (v : List ℚ) : 0 ≤ sumSq v := by
  refine List.sum_nonneg ?_
  intro x hx
  obtain ⟨a, _, rfl⟩ := List.mem_map.1 hx
  exact mul_self_nonneg a

theorem dotList_self (v : List ℚ) : dotList v v = sumSq v := by
  rw [dotList, sumSq, List.zipWith_same]

theorem dotList_zero_left (v1 v2 : List ℚ) (h : ∀ x ∈ v1, x = 0) :
    dotList v1 v2 = 0 := by
  induction v1 generalizing v2 with
  | nil => simp [dotList]
  | cons a v1 ih =>
    cases v2 with
    | nil => simp [dotList]
    | cons b v2 =>
      have ha : a = 0 := h a (by simp)
      have := ih v2 (fun x hx => h x (by simp [hx]))
      simp only [dotList, List.zipWith_cons_cons, List.sum_cons] at *
      rw [ha, this]; ring

theorem dotList_comm (v1 v2 : List ℚ) : dotList v1 v2 = dotList v2 v1 := by
  rw [dotList, dotList, List.zipWith_comm_of_comm _ mul_comm]

theorem dotList_take_min (v1 v2 : List ℚ) :
    dotList v1 v2 =
      dotList (v1.take (min v1.length v2.length))
        (v2.take (min v1.length v2.length)) := by
  induction v1 generalizing v2 with
  | nil => simp [dotList]
  | cons a v1 ih =>
    cases v2 with
    | nil => simp [dotList]
    | cons b v2 =>
      have h := ih v2
      simp only [dotList] at h
      simp only [List.length_cons, Nat.succ_min_succ, List.take_succ_cons,
        dotList, List.zipWith_cons_cons, List.sum_cons, h]

theorem denom_pos (v1 v2 : List ℚ) : 0 < norm2 v1 * norm2 v2 + 1e-8 := by
  have h1 : 0 ≤ norm2 v1 * norm2 v2 :=
    mul_nonneg (Real.sqrt_nonneg _) (Real.sqrt_nonneg _)
  have h2 : (0 : ℝ) < 1e-8 := by norm_num
  linarith

/-- C7: for equal-length vectors the similarity score is
`dot / (norm1 * norm2 + 1e-8)`, the denominator is strictly positive (the
computation is total, never a division by zero), and when either vector is
all-zero the score is 0. -/
theorem cosine_similarity_spec (v1 v2 : List ℚ) (_h : v1.length = v2.length) :
    cosine_similarity v1 v2 =
        ((dotList v1 v2 : ℚ) : ℝ) / (norm2 v1 * norm2 v2 + 1e-8) ∧
      0 < norm2 v1 * norm2 v2 + 1e-8 ∧
      (((∀ x ∈ v1, x = 0) ∨ (∀ x ∈ v2, x = 0)) →
        cosine_similarity v1 v2 = 0) := by
  refine ⟨rfl, denom_pos v1 v2, ?_⟩
  rintro (hz | hz)
  · rw [cosine_similarity, dotList_zero_left v1 v2 hz]
    simp
  · rw [cosine_similarity, dotList_comm, dotList_zero_left v2 v1 hz]
    simp

/-- Witness for C7: the all-zero vector against an equal-length vector
scores 0. -/
theorem cosine_similarity_spec_witness :
    cosine_similarity [(0 : ℚ)] [(3 : ℚ)] = 0 :=
  (cosine_similarity_spec [(0 : ℚ)] [(3 : ℚ)] rfl).2.2 (Or.inl (by decide))

/-- C10: `cosine_similarity` is total on every pair of lists, of equal or
unequal length, whichever side is longer: the dot product in the numerator
ranges over only the common prefix (both lists truncated to the shorter
length, as the zip does) while each norm under the square root ranges over
that vector's full length, and the denominator is strictly positive, so a
length mismatch silently yields a score rather than an error or a skipped
candidate. -/
theorem cosine_similarity_mismatch (v1 v2 : List ℚ) :
    cosine_similarity v1 v2 =
        ((dotList (v1.take (min v1.length v2.length))
            (v2.take (min v1.length v2.length)) : ℚ) : ℝ) /
          (Real.sqrt ((sumSq v1 : ℚ) : ℝ) * Real.sqrt ((sumSq v2 : ℚ) : ℝ) +
            1e-8) ∧
      0 < norm2 v1 * norm2 v2 + 1e-8 := by
  constructor
  · rw [cosine_similarity, ← dotList_take_min]
    rfl
  · exact denom_pos v1 v2

/-- C8 counterexample: the non-zero vector `[1/100000]` has self-similarity
`1/101`, far below `1 - 1e-6`, because the `1e-8` term added to the
denominator dominates the tiny squared norm `1e-10`. So the claim "for
every non-zero vector, self-similarity is within 1e-6 of 1.0" fails. -/
theorem cosine_self_tolerance_cex :
    (∃ x ∈ [(1/100000 : ℚ)], x ≠ 0) ∧
      ¬ |cosine_similarity [(1/100000 : ℚ)] [(1/100000 : ℚ)] - 1| ≤ 1e-6 := by
  constructor
  · exact ⟨1/100000, by simp, by norm_num⟩
  · have h1 : ((sumSq [(1/100000 : ℚ)] : ℚ) : ℝ) = (1/100000 : ℝ)^2 := by
      norm_num [sumSq]
    have h2 : norm2 [(1/100000 : ℚ)] = 1/100000 := by
      rw [norm2, h1, Real.sqrt_sq (by norm_num)]
    have h3 : cosine_similarity [(1/100000 : ℚ)] [(1/100000 : ℚ)] = 1/101 := by
      rw [cosine_similarity, h2]
      norm_num [dotList]
    rw [h3]
    intro hc
    rw [abs_le] at hc
    have := hc.1
    norm_num at this

/-- C8 amended: for every vector whose sum of squared entries is at least 1
(in particular every non-zero term-frequency vector, whose entries are
nonnegative integers), the cosine similarity of the vector with itself is
within 1e-6 of 1.0. -/
theorem cosine_self_near_one (v : List ℚ) (h : 1 ≤ sumSq v) :
    |cosine_similarity v v - 1| ≤ 1e-6 := by
  have hS : (1 : ℝ) ≤ ((sumSq v : ℚ) : ℝ) := by exact_mod_cast h
  have hnn : (0 : ℝ) ≤ ((sumSq v : ℚ) : ℝ) := by linarith
  have hn : norm2 v * norm2 v = ((sumSq v : ℚ) : ℝ) := Real.mul_self_sqrt hnn
  have hden : (0 : ℝ) < ((sumSq v : ℚ) : ℝ) + 1e-8 := by norm_num; linarith
  have hc : cosine_similarity v v =
      ((sumSq v : ℚ) : ℝ) / (((sumSq v : ℚ) : ℝ) + 1e-8) := by
    rw [cosine_similarity, dotList_self, hn]
  rw [hc]
  have hsub : ((sumSq v : ℚ) : ℝ) / (((sumSq v : ℚ) : ℝ) + 1e-8) - 1 =
      -(1e-8) / (((sumSq v : ℚ) : ℝ) + 1e-8) := by
    field_simp
  rw [hsub, abs_div, abs_neg, abs_of_pos hden,
    abs_of_pos (by norm_num : (0:ℝ) < 1e-8)]
  rw [div_le_iff₀ hden]
  nlinarith

/-- Witness for the amended C8 at the concrete vector `[1, 1]`. -/
theorem cosine_self_near_one_witness :
    (1 : ℚ) ≤ sumSq [1, 1] ∧ |cosine_similarity [1, 1] [1, 1] - 1| ≤ 1e-6 :=
  ⟨by simp [sumSq], cosine_self_near_one [1, 1] (by simp [sumSq])⟩

/-- Embeds the record-id generation in `main` of `src/test_google.py`:
`entry_id = f"{Path(args.pdf_path).stem}_{hash(response)}"`. Python's
built-in `hash` on strings is salted per process, so the hash function a
given run uses is passed here as a parameter `pyHash`; two distinct runs
may use two different such functions on the same input. -/
def entry_id (pyHash : String → Int) (stem response : String) : String :=
  stem ++ "_" ++ toString (pyHash response)

/-- C3 failing witness: on identical input (stem "paper", identical
response text), two runs whose per-process hash functions value the
response differently produce different record ids, so the stored id is not
stable across runs. -/
theorem entry_id_not_run_stable :
    entry_id (fun _ => 0) "paper" "analysis text" ≠
      entry_id (fun _ => 1) "paper" "analysis text" := by decide

/-- Modelled from the spec: a Document Record of the collection (§3 Data
Model): id, original text, opaque source metadata, and the stored vector.
The source delegates storage to an external collection, so the store is
embedded from the spec's contract. -/
structure DocRecord where
  id : String
  text : String
  source : String
  vector : List ℚ
deriving DecidableEq

/-- Modelled from the spec: the persistent collection state: the canonical
vocabulary and the document records in insertion order (§4.2 VectorStore). -/
structure VectorStore where
  vocab : List String
  records : List DocRecord
deriving DecidableEq

/-- Modelled from the spec: the store's failure modes (§4.2): a vector
longer than the vocabulary is a dimension mismatch. -/
inductive StoreError where
  | dimensionMismatch
deriving DecidableEq

/-- Modelled from the spec: zero-padding of a vector to the vocabulary
length (the re-projection step of §4.1 and §4.2). -/
def padTo (v : List ℚ) (n : ℕ) : List ℚ :=
  v ++ List.replicate (n - v.length) 0

/-- Modelled from the spec: `upsert(id, text, source, vector)` (§4.2): a
vector longer than the current vocabulary fails with `DimensionMismatch`;
a shorter one is zero-padded to the vocabulary length; a record whose id
collides with a stored record overwrites it in place, otherwise the record
is appended. -/
def upsert (s : VectorStore) (r : DocRecord) : Except StoreError VectorStore :=
  if s.vocab.length < r.vector.length then .error .dimensionMismatch
  else if s.records.any (fun q => q.id == r.id) then
    .ok { s with records := s.records.map (fun q => if q.id == r.id then
      { r with vector := padTo r.vector s.vocab.length } else q) }
  else
    .ok { s with records :=
      s.records ++ [{ r with vector := padTo r.vector s.vocab.length }] }

/-- Modelled from the spec: `getAll()` (§4.2) returns every current record
as an (id, vector, text, source) tuple. -/
def getAll (s : VectorStore) : List (String × List ℚ × String × String) :=
  s.records.map fun r => (r.id, r.vector, r.text, r.source)

/-- Modelled from the spec: `growVocabulary(newVocabulary)` (§4.2): extends
the stored vocabulary and re-projects (zero-pads) every previously stored
vector to the new length. -/
def growVocabulary (s : VectorStore) (newVocab : List String) : VectorStore :=
  { vocab := newVocab
    records :=
      s.records.map fun r => { r with vector := padTo r.vector newVocab.length } }

/-- Ids of the stored records, in storage order. -/
def storeIds (s : VectorStore) : List String := s.records.map DocRecord.id

theorem padTo_length (v : List ℚ) (n : ℕ) (h : v.length ≤ n) :
    (padTo v n).length = n := by
  simp only [padTo, List.length_append, List.length_replicate]
  omega

theorem padTo_self (v : List ℚ) : padTo v v.length = v := by
  simp [padTo]

/-- C2: upserting a record whose id is already stored overwrites the old
record: the id list (hence insertion order and absence of duplicates) is
unchanged, the record stored under that id is exactly the new one (vector,
text, source), and every other record is untouched. -/
theorem upsert_overwrites (s : VectorStore) (r : DocRecord)
    (hnodup : (storeIds s).Nodup) (hmem : r.id ∈ storeIds s)
    (hlen : r.vector.length = s.vocab.length) :
    ∃ s₂, upsert s r = .ok s₂ ∧
      storeIds s₂ = storeIds s ∧
      (storeIds s₂).Nodup ∧
      r ∈ s₂.records ∧
      (∀ q ∈ s₂.records, q.id = r.id → q = r) ∧
      (∀ q ∈ s₂.records, q.id ≠ r.id → q ∈ s.records) := by
  obtain ⟨q₀, hq₀, hq₀id⟩ := List.mem_map.1 hmem
  have hcond : ¬ s.vocab.length < r.vector.length := by omega
  have hpad : ({ r with vector := padTo r.vector s.vocab.length } : DocRecord) = r := by
    rw [← hlen, padTo_self]
  have hany : s.records.any (fun q => q.id == r.id) = true :=
    List.any_eq_true.2 ⟨q₀, hq₀, by simpa using hq₀id⟩
  have hmap :
      (s.records.map (fun q => if q.id == r.id then
          ({ r with vector := padTo r.vector s.vocab.length } : DocRecord) else q)) =
        s.records.map (fun q => if q.id = r.id then r else q) := by
    refine List.map_congr_left fun q _ => ?_
    by_cases hq : q.id = r.id <;> simp [hq, hpad]
  have hids : ((s.records.map (fun q => if q.id = r.id then r else q)).map
      DocRecord.id) = s.records.map DocRecord.id := by
    rw [List.map_map]
    refine List.map_congr_left fun q _ => ?_
    by_cases hq : q.id = r.id <;> simp [hq]
  refine ⟨{ s with records :=
      s.records.map (fun q => if q.id = r.id then r else q) }, ?_, ?_, ?_, ?_, ?_, ?_⟩
  · unfold upsert
    rw [if_neg hcond, if_pos hany, hmap]
  · exact hids
  · have h₂ := hnodup
    rw [storeIds, ← hids] at h₂
    exact h₂
  · refine List.mem_map.2 ⟨q₀, hq₀, ?_⟩
    simp [hq₀id]
  · intro q hq hqid
    obtain ⟨p, _, rfl⟩ := List.mem_map.1 hq
    by_cases hp : p.id = r.id
    · simp [hp]
    · simp only [if_neg hp] at hqid ⊢
      exact absurd hqid hp
  · intro q hq hqid
    obtain ⟨p, hp₀, rfl⟩ := List.mem_map.1 hq
    by_cases hp : p.id = r.id
    · simp only [if_pos hp] at hqid
      exact absurd rfl hqid
    · simpa [if_neg hp] using hp₀

/-- Witness for C2: a two-record store, overwriting the record of id
"doc1". -/
theorem upsert_overwrites_witness :
    ∃ s₂, upsert ⟨["a", "b"], [⟨"doc1", "t1", "s1", [1, 0]⟩,
        ⟨"doc2", "t2", "s2", [0, 1]⟩]⟩ ⟨"doc1", "t3", "s3", [2, 2]⟩ = .ok s₂ ∧
      storeIds s₂ = storeIds ⟨["a", "b"], [⟨"doc1", "t1", "s1", [1, 0]⟩,
        ⟨"doc2", "t2", "s2", [0, 1]⟩]⟩ ∧
      (storeIds s₂).Nodup ∧
      (⟨"doc1", "t3", "s3", [2, 2]⟩ : DocRecord) ∈ s₂.records ∧
      (∀ q ∈ s₂.records, q.id = "doc1" → q = ⟨"doc1", "t3", "s3", [2, 2]⟩) ∧
      (∀ q ∈ s₂.records, q.id ≠ "doc1" →
        q ∈ [(⟨"doc1", "t1", "s1", [1, 0]⟩ : DocRecord),
          ⟨"doc2", "t2", "s2", [0, 1]⟩]) :=
  upsert_overwrites ⟨["a", "b"], [⟨"doc1", "t1", "s1", [1, 0]⟩,
      ⟨"doc2", "t2", "s2", [0, 1]⟩]⟩ ⟨"doc1", "t3", "s3", [2, 2]⟩
    (by decide) (by decide) (by decide)

theorem replicate_zero_getD (k j : ℕ) :
    (List.replicate k (0 : ℚ)).getD j 0 = 0 := by
  induction k generalizing j with
  | zero => simp
  | succ k ih =>
    cases j with
    | zero => simp [List.replicate]
    | succ j =>
      show (0 :: List.replicate k (0 : ℚ)).getD (j + 1) 0 = 0
      rw [List.getD_cons_succ]
      exact ih j

/-- C4: after `growVocabulary`, the stored vocabulary is the new one, every
stored vector (and so every vector `getAll` returns — never mixed
dimensionality) has length equal to the new vocabulary length, and for each
pre-existing record the re-projected record is stored and holds 0 at every
newly added index. -/
theorem growVocabulary_reprojects (s : VectorStore) (newVocab : List String)
    (hdim : ∀ r ∈ s.records, r.vector.length = s.vocab.length)
    (hgrow : s.vocab.length ≤ newVocab.length) :
    (growVocabulary s newVocab).vocab = newVocab ∧
      (∀ r ∈ (growVocabulary s newVocab).records,
        r.vector.length = newVocab.length) ∧
      (∀ t ∈ getAll (growVocabulary s newVocab),
        t.2.1.length = newVocab.length) ∧
      (∀ r ∈ s.records,
        ({ r with vector := padTo r.vector newVocab.length } : DocRecord) ∈
            (growVocabulary s newVocab).records ∧
          ∀ i, s.vocab.length ≤ i → i < newVocab.length →
            (padTo r.vector newVocab.length).getD i 0 = 0) := by
  refine ⟨rfl, ?_, ?_, ?_⟩
  · intro r hr
    obtain ⟨p, hp, rfl⟩ := List.mem_map.1 hr
    exact padTo_length _ _ ((hdim p hp).le.trans hgrow)
  · intro t ht
    obtain ⟨r, hr, rfl⟩ := List.mem_map.1 ht
    obtain ⟨p, hp, rfl⟩ := List.mem_map.1 hr
    exact padTo_length _ _ ((hdim p hp).le.trans hgrow)
  · intro r hr
    refine ⟨List.mem_map.2 ⟨r, hr, rfl⟩, ?_⟩
    intro i hi₁ hi₂
    have hlen : r.vector.length ≤ i := (hdim r hr).le.trans hi₁
    rw [padTo, List.getD_append_right _ _ _ _ hlen, replicate_zero_getD]

/-- Witness for C4: growing the vocabulary from ["a"] to ["a", "b"]
re-projects the single stored record. -/
theorem growVocabulary_reprojects_witness :
    (growVocabulary ⟨["a"], [⟨"doc1", "t1", "s1", [2]⟩]⟩ ["a", "b"]).vocab =
        ["a", "b"] ∧
      (∀ r ∈ (growVocabulary ⟨["a"], [⟨"doc1", "t1", "s1", [2]⟩]⟩
          ["a", "b"]).records, r.vector.length = (["a", "b"] : List String).length) ∧
      (∀ t ∈ getAll (growVocabulary ⟨["a"], [⟨"doc1", "t1", "s1", [2]⟩]⟩
          ["a", "b"]), t.2.1.length = (["a", "b"] : List String).length) ∧
      (∀ r ∈ [(⟨"doc1", "t1", "s1", [2]⟩ : DocRecord)],
        ({ r with vector := padTo r.vector (["a", "b"] : List String).length } :
            DocRecord) ∈
            (growVocabulary ⟨["a"], [⟨"doc1", "t1", "s1", [2]⟩]⟩
              ["a", "b"]).records ∧
          ∀ i, (["a"] : List String).length ≤ i →
            i < (["a", "b"] : List String).length →
            (padTo r.vector (["a", "b"] : List String).length).getD i 0 = 0) :=
  growVocabulary_reprojects ⟨["a"], [⟨"doc1", "t1", "s1", [2]⟩]⟩ ["a", "b"]
    (by decide) (by decide)

/-- Modelled from the spec: the Ranker's ordering (§4.3): descending by
score, ties broken by the candidate's original insertion index (stable
sort). -/
def rankRel (a b : String × ℝ × ℕ) : Prop :=
  b.2.1 < a.2.1 ∨ (a.2.1 = b.2.1 ∧ a.2.2 ≤ b.2.2)

noncomputable instance rankRelDecidable : DecidableRel rankRel :=
  fun _ _ => Classical.dec _

instance rankRelTotal : IsTotal (String × ℝ × ℕ) rankRel where
  total a b := by
    rcases lt_trichotomy a.2.1 b.2.1 with h | h | h
    · exact Or.inr (Or.inl h)
    · rcases Nat.le_total a.2.2 b.2.2 with hn | hn
      · exact Or.inl (Or.inr ⟨h, hn⟩)
      · exact Or.inr (Or.inr ⟨h.symm, hn⟩)
    · exact Or.inl (Or.inl h)

instance rankRelTrans : IsTrans (String × ℝ × ℕ) rankRel where
  trans a b c hab hbc := by
    rcases hab with hab | ⟨hab, hab₂⟩ <;> rcases hbc with hbc | ⟨hbc, hbc₂⟩
    · exact Or.inl (hbc.trans hab)
    · exact Or.inl (hbc ▸ hab)
    · exact Or.inl (hab ▸ hbc)
    · exact Or.inr ⟨hab.trans hbc, hab₂.trans hbc₂⟩

/-- Modelled from the spec: per §4.3's precondition, a candidate whose
vector length differs from the query vector's is skipped (with a recorded
warning, which is logging and out of scope here); every remaining
candidate is scored with cosine similarity against the query vector and
tagged with its original insertion index. -/
noncomputable def scoreCandidates (q : List ℚ)
    (candidates : List (String × List ℚ)) : List (String × ℝ × ℕ) :=
  (candidates.enum.filter fun p => p.2.2.length == q.length).map
    fun p => (p.2.1, cosine_similarity q p.2.2, p.1)

/-- Modelled from the spec: the scored candidates sorted by `rankRel`
(descending score, ties by insertion index). -/
noncomputable def rankScored (q : List ℚ)
    (candidates : List (String × List ℚ)) : List (String × ℝ × ℕ) :=
  List.insertionSort rankRel (scoreCandidates q candidates)

/-- Modelled from the spec: `rank(queryVector, candidates, k)` (§4.3):
skip length-mismatched candidates, score the rest, sort descending with
ties by insertion order, and return the first k (id, score) pairs. -/
noncomputable def rank (q : List ℚ) (candidates : List (String × List ℚ))
    (k : ℕ) : List (String × ℝ) :=
  ((rankScored q candidates).map fun x => (x.1, x.2.1)).take k

/-- C9: for k ≥ 1, `rank` returns exactly min k (number of non-skipped
candidates) entries — so at most k, and, when every candidate vector
matches the query's length and fewer than k candidates exist, all of
them — in descending score order; every ranked entry arises from a
length-matching candidate; the underlying sorted list is ordered by
descending score with ties broken by insertion index and is a permutation
of the scored candidates, and `rank` is the k-prefix of it, so repeated
calls agree. -/
theorem rank_spec (q : List ℚ) (candidates : List (String × List ℚ)) (k : ℕ)
    (_hk : 1 ≤ k) :
    (rank q candidates k).length =
        min k (candidates.enum.filter
          (fun p => p.2.2.length == q.length)).length ∧
      (rank q candidates k).length ≤ k ∧
      ((∀ p ∈ candidates, p.2.length = q.length) → candidates.length < k →
        (rank q candidates k).length = candidates.length) ∧
      (rank q candidates k).Pairwise (fun a b => b.2 ≤ a.2) ∧
      (∀ x ∈ rankScored q candidates, ∃ p ∈ candidates.enum,
        p.2.2.length = q.length ∧
          x = (p.2.1, cosine_similarity q p.2.2, p.1)) ∧
      (rankScored q candidates).Pairwise rankRel ∧
      (rankScored q candidates).Perm (scoreCandidates q candidates) ∧
      rank q candidates k =
        ((rankScored q candidates).map fun x => (x.1, x.2.1)).take k := by
  have hsorted : (rankScored q candidates).Pairwise rankRel :=
    List.sorted_insertionSort rankRel _
  have hperm : (rankScored q candidates).Perm (scoreCandidates q candidates) :=
    List.perm_insertionSort rankRel _
  have hlen : (rank q candidates k).length =
      min k (candidates.enum.filter
        (fun p => p.2.2.length == q.length)).length := by
    rw [rank, List.length_take, List.length_map, hperm.length_eq,
      scoreCandidates, List.length_map]
  refine ⟨hlen, ?_, ?_, ?_, ?_, hsorted, hperm, rfl⟩
  · rw [hlen]; omega
  · intro hall hlt
    have hfe : (candidates.enum.filter fun p => p.2.2.length == q.length) =
        candidates.enum := by
      refine List.filter_eq_self.2 fun p hp => ?_
      have hp₂ : p.2 ∈ candidates := by
        have := List.mem_map_of_mem Prod.snd hp
        rwa [List.enum_map_snd] at this
      simpa using hall p.2 hp₂
    rw [hlen, hfe, List.enum_length]
    omega
  · refine List.Pairwise.sublist (List.take_sublist _ _) ?_
    rw [List.pairwise_map]
    refine hsorted.imp ?_
    rintro a b (h | ⟨h, _⟩)
    · exact le_of_lt h
    · exact le_of_eq h.symm
  · intro x hx
    have hx₂ : x ∈ scoreCandidates q candidates := hperm.mem_iff.1 hx
    obtain ⟨p, hp, rfl⟩ := List.mem_map.1 hx₂
    have hpf := List.mem_filter.1 hp
    exact ⟨p, hpf.1, by simpa using hpf.2, rfl⟩

/-- Witness for C9: one length-matching candidate, k = 2, every hypothesis
discharged concretely; all candidates come back since fewer than k exist. -/
theorem rank_spec_witness :
    (rank [(1 : ℚ)] [("doc1", [(1 : ℚ)])] 2).length =
      ([("doc1", [(1 : ℚ)])] : List (String × List ℚ)).length :=
  (rank_spec [(1 : ℚ)] [("doc1", [(1 : ℚ)])] 2 (by decide)).2.2.1
    (by decide) (by decide)

end Pipeline
